import Mathlib

/-!
# Verification of `eveMaterialOptimizer.py`

A shallow embedding of the EVE material optimizer.  The Python program keeps
a catalog of ores (price, volume, per-mineral yields) and required mineral
amounts in dictionaries on a `MaterialOptimizer` object, and `solve_problem`
translates that state into a PuLP linear program.

Modelling decisions, all taken from the source:

* Python `dict`s are embedded as association lists (`List (key × value)`)
  with insertion-order iteration; updating an existing key keeps its
  position, a new key is appended — exactly CPython's dict semantics.
* PuLP `LpVariable` objects hash by object identity (`self.hash = id(self)`),
  so dictionaries keyed by variables distinguish two variables even when
  they carry the same name.  We embed each variable object as a numeric
  identity (`VarId`) handed out at creation time.  The two variables created
  in `__init__` get ids 0 (`volume`) and 1 (`price`); ore variables created
  by `add_ore` get ids `2 + 2*n` and purchased-mineral variables created by
  `add_mineral` get ids `3 + 2*n`.  All that the program relies on is that
  distinct creations give distinct identities, which this allocation
  refines.
* Numeric values are embedded as rationals.
* A Python `KeyError` is embedded as an explicit error value; an operation
  that can raise returns the error together with the state as mutated up to
  the raise point.
-/

/-- The identity of a PuLP `LpVariable` object (Python object identity). -/
abbrev VarId := Nat

/-- Id of the `volume` variable created in `__init__`. -/
def volumeVarId : VarId := 0

/-- Id of the `price` variable created in `__init__`. -/
def priceVarId : VarId := 1

/-- Id of the ore variable created by the `n`-th call to `add_ore`. -/
def oreVarId (n : Nat) : VarId := 2 + 2 * n

/-- Id of the variable created by the `n`-th call to `add_mineral`. -/
def mineralVarId (n : Nat) : VarId := 3 + 2 * n

section PyDict

variable {α : Type} {β : Type} [DecidableEq α]

/-- Python dict lookup `d[k]` (as an `Option`): first entry with the key. -/
def dlookup : List (α × β) → α → Option β
  | [], _ => none
  | (a, b) :: rest, k => if a = k then some b else dlookup rest k

/-- Python dict store `d[k] = v`: replace in place if the key is present
(keeping its position), else append at the end. -/
def dinsert : List (α × β) → α → β → List (α × β)
  | [], k, v => [(k, v)]
  | (a, b) :: rest, k, v =>
      if a = k then (k, v) :: rest else (a, b) :: dinsert rest k v

/-- Python `d.values()` in iteration order. -/
def dvalues (d : List (α × β)) : List β := d.map Prod.snd

theorem dlookup_dinsert (d : List (α × β)) (k k' : α) (v : β) :
    dlookup (dinsert d k v) k' = if k' = k then some v else dlookup d k' := by
  induction d with
  | nil =>
      simp only [dinsert, dlookup]
      by_cases h : k = k'
      · subst h; simp
      · have h2 : ¬ k' = k := fun e => h e.symm
        simp [h, h2, dlookup]
  | cons e rest ih =>
      obtain ⟨a, b⟩ := e
      simp only [dinsert]
      by_cases hak : a = k
      · subst hak
        simp only [if_pos rfl, dlookup]
        by_cases h : a = k'
        · subst h; simp
        · have h2 : ¬ k' = a := fun e => h e.symm
          simp [h, h2]
      · simp only [if_neg hak, dlookup]
        by_cases h : a = k'
        · have h2 : ¬ k' = k := fun e => hak (h.trans e)
          simp [h, h2]
        · simp only [if_neg h, ih]

theorem dlookup_dinsert_self (d : List (α × β)) (k : α) (v : β) :
    dlookup (dinsert d k v) k = some v := by
  simp [dlookup_dinsert]

theorem dlookup_mem {d : List (α × β)} {k : α} {v : β}
    (h : dlookup d k = some v) : (k, v) ∈ d := by
  induction d with
  | nil => simp [dlookup] at h
  | cons e rest ih =>
      obtain ⟨a, b⟩ := e
      by_cases hak : a = k
      · subst hak
        simp [dlookup] at h
        simp [h]
      · simp [dlookup, hak] at h
        exact List.mem_cons_of_mem _ (ih h)

theorem dvalues_dinsert_subset {d : List (α × β)} {k : α} {v w : β}
    (h : w ∈ dvalues (dinsert d k v)) : w = v ∨ w ∈ dvalues d := by
  induction d with
  | nil =>
      simp [dinsert, dvalues] at h
      exact Or.inl h
  | cons e rest ih =>
      obtain ⟨a, b⟩ := e
      by_cases hak : a = k
      · subst hak
        simp [dinsert, dvalues] at h ⊢
        tauto
      · simp only [dinsert, if_neg hak, dvalues, List.map_cons, List.mem_cons] at h ⊢
        rcases h with h | h
        · exact Or.inr (Or.inl h)
        · rcases ih h with h' | h'
          · exact Or.inl h'
          · exact Or.inr (Or.inr h')

end PyDict

deriving instance DecidableEq for Except

/-- Python exceptions that matter here.  The source raises only `KeyError`
(from indexing a dict with a missing key).  The spec additionally names
`InvalidResourceError` and `InfeasibleByConstructionError`; no class of
either name exists anywhere in the source, so no embedded operation ever
produces those two constructors — they exist only so that claims about them
can be stated. -/
inductive PyError where
  | keyError (key : String)
  | keyErrorVar (key : VarId)
  | invalidResource
  | infeasibleByConstruction
deriving DecidableEq, Repr

/-- The `MaterialOptimizer` object state: one field per dictionary /
attribute assigned in `__init__`, plus the identity allocators for the
`LpVariable` objects created by `add_ore` / `add_mineral` and a record of
each created variable's `.name` attribute (`var_names`). -/
structure MaterialOptimizer where
  required_materials : List (String × ℚ)
  volume_per_ore : List (VarId × ℚ)
  price_per_ore : List (VarId × ℚ)
  volume_per_mineral : List (VarId × ℚ)
  price_per_mineral : List (VarId × ℚ)
  variable_mineral_dict : List (String × VarId)
  variable_ore_dict : List (String × VarId)
  yield_per_mineral : List (String × List (VarId × ℚ))
  weight_of_volume : ℚ
  weight_of_price : ℚ
  var_names : List (VarId × String)
  next_ore_var : Nat
  next_mineral_var : Nat
deriving DecidableEq, Repr

/-- `__init__`: empty dictionaries, weights `(price, volume) = (1, 0)`, and
the two free variables `volume` and `price`. -/
def initOptimizer : MaterialOptimizer :=
  { required_materials := []
    volume_per_ore := []
    price_per_ore := []
    volume_per_mineral := []
    price_per_mineral := []
    variable_mineral_dict := []
    variable_ore_dict := []
    yield_per_mineral := []
    weight_of_volume := 0
    weight_of_price := 1
    var_names := [(volumeVarId, "volume"), (priceVarId, "price")]
    next_ore_var := 0
    next_mineral_var := 0 }

/-- `add_ore`: create a fresh integer variable named `ore_name` and record
its price and volume per unit.  No validation of any kind is performed. -/
def add_ore (obj : MaterialOptimizer) (ore_name : String)
    (price_to_acquire_unit volume_of_unit : ℚ) : MaterialOptimizer :=
  let v := oreVarId obj.next_ore_var
  { obj with
    variable_ore_dict := dinsert obj.variable_ore_dict ore_name v
    price_per_ore := dinsert obj.price_per_ore v price_to_acquire_unit
    volume_per_ore := dinsert obj.volume_per_ore v volume_of_unit
    var_names := obj.var_names ++ [(v, ore_name)]
    next_ore_var := obj.next_ore_var + 1 }

/-- `set_mineral_yield_of_ore`: ensure the per-mineral inner dict exists,
then store the yield keyed by the ore's *variable object*.  Indexing
`variable_ore_dict[ore_name]` raises `KeyError` for an unregistered ore —
after the inner dict has already been created, as in the source. -/
def set_mineral_yield_of_ore (obj : MaterialOptimizer)
    (ore_name mineral_name : String) (yield_per_unit_ore : ℚ) :
    MaterialOptimizer × Option PyError :=
  let obj1 :=
    if (dlookup obj.yield_per_mineral mineral_name).isSome then obj
    else { obj with yield_per_mineral := dinsert obj.yield_per_mineral mineral_name [] }
  match dlookup obj1.variable_ore_dict ore_name with
  | none => (obj1, some (PyError.keyError ore_name))
  | some v =>
      ({ obj1 with
          yield_per_mineral :=
            dinsert obj1.yield_per_mineral mineral_name
              (dinsert ((dlookup obj1.yield_per_mineral mineral_name).getD []) v yield_per_unit_ore) },
        none)

/-- `add_mineral`: create a fresh integer variable named
`Purchased{mineral_name}` and record its price and volume per unit.  (The
variable's name is the same string used as the `variable_mineral_dict`
key; these variables are read by nothing else in the program.) -/
def add_mineral (obj : MaterialOptimizer) (mineral_name : String)
    (price_to_acquire_unit volume_of_unit : ℚ) : MaterialOptimizer :=
  let nm := "Purchased" ++ mineral_name
  let v := mineralVarId obj.next_mineral_var
  { obj with
    variable_mineral_dict := dinsert obj.variable_mineral_dict nm v
    price_per_mineral := dinsert obj.price_per_mineral v price_to_acquire_unit
    volume_per_mineral := dinsert obj.volume_per_mineral v volume_of_unit
    next_mineral_var := obj.next_mineral_var + 1 }

/-- `set_required_mineral`: store the desired amount of output material. -/
def set_required_mineral (obj : MaterialOptimizer) (nm : String)
    (required_amount : ℚ) : MaterialOptimizer :=
  { obj with required_materials := dinsert obj.required_materials nm required_amount }

/-- `configure_cost_function`: set the two objective weights. -/
def configure_cost_function (obj : MaterialOptimizer)
    (weight_of_price weight_of_volume : ℚ) : MaterialOptimizer :=
  { obj with
    weight_of_volume := weight_of_volume
    weight_of_price := weight_of_price }

/-- Sense of a PuLP `LpConstraint` (`LpConstraintEQ` / `LpConstraintGE`). -/
inductive CSense where
  | eq
  | ge
deriving DecidableEq, Repr

/-- A PuLP `LpConstraint`: an affine expression as `(variable, coefficient)`
pairs, a sense, a constraint name, and a right-hand side. -/
structure LinConstraint where
  coeffs : List (VarId × ℚ)
  sense : CSense
  cname : String
  rhs : ℚ
deriving DecidableEq, Repr

/-- The abstract `LpProblem` built by `solve_problem`: the constraints in
the order they are added, the objective expression, and the optimization
sense (`LpMinimize`). -/
structure LpModel where
  constraints : List LinConstraint
  objective : List (VarId × ℚ)
  minimize : Bool
deriving DecidableEq, Repr

/-- The list-comprehension
`[(var, dict[var]) for var in vars]` from lines 57 and 61: pairs each
variable with its dictionary entry, raising `KeyError` on a missing key. -/
def lookupPairs (d : List (VarId × ℚ)) : List VarId → Except PyError (List (VarId × ℚ))
  | [] => Except.ok []
  | v :: rest =>
      match dlookup d v with
      | none => Except.error (PyError.keyErrorVar v)
      | some p => Except.map (fun ys => (v, p) :: ys) (lookupPairs d rest)

/-- The loop over `required_materials` (lines 73-79): for each required
material, indexing `yield_per_mineral[material]` (a `KeyError` when the
material has no yield entry at all) and building the `GE` constraint
`Produce{material}` with the yield pairs and the required amount. -/
def productionConstraints (yields : List (String × List (VarId × ℚ))) :
    List (String × ℚ) → Except PyError (List LinConstraint)
  | [] => Except.ok []
  | (mat, amt) :: rest =>
      match dlookup yields mat with
      | none => Except.error (PyError.keyError mat)
      | some ys =>
          Except.map
            (fun cs => { coeffs := ys, sense := CSense.ge, cname := "Produce" ++ mat, rhs := amt } :: cs)
            (productionConstraints yields rest)

/-- Lines 54-79 of `solve_problem`: the `LpProblem` handed to the solver.
Price and volume equality constraints are built first (over the *current*
values of `variable_ore_dict`), then the objective
`weight_of_price * price + weight_of_volume * volume`, then one production
constraint per required material in dict order. -/
def buildModel (s : MaterialOptimizer) : Except PyError LpModel :=
  match lookupPairs s.price_per_ore (dvalues s.variable_ore_dict) with
  | Except.error e => Except.error e
  | Except.ok price_coefficients =>
    match lookupPairs s.volume_per_ore (dvalues s.variable_ore_dict) with
    | Except.error e => Except.error e
    | Except.ok volume_coefficients =>
      match productionConstraints s.yield_per_mineral s.required_materials with
      | Except.error e => Except.error e
      | Except.ok prods =>
          Except.ok
            { constraints :=
                { coeffs := price_coefficients ++ [(priceVarId, -1)], sense := CSense.eq,
                  cname := "PriceConstraint", rhs := 0 } ::
                { coeffs := volume_coefficients ++ [(volumeVarId, -1)], sense := CSense.eq,
                  cname := "VolumeConstraint", rhs := 0 } ::
                prods
              objective := [(priceVarId, s.weight_of_price), (volumeVarId, s.weight_of_volume)]
              minimize := true }

/-- Status reported by the solver (`pulp.LpStatus` values). -/
inductive SolverStatus where
  | optimal
  | subOptimal
  | infeasible
  | unbounded
  | timedOut
  | notSolved
deriving DecidableEq, Repr

/-- The external CBC solver as a black box: from an abstract problem it
produces a status and a value for every variable. -/
abbrev Solver := LpModel → SolverStatus × (VarId → ℚ)

/-- Keep the first occurrence of each id, drop later duplicates — how
`LpProblem.variables()` accumulates variable objects via dict update. -/
def dedupKeepAux (seen : List VarId) : List VarId → List VarId
  | [] => []
  | v :: rest =>
      if v ∈ seen then dedupKeepAux seen rest
      else v :: dedupKeepAux (v :: seen) rest

/-- The variable objects of the model, in collection order: objective
first, then each constraint. -/
def LpModel.varsOf (m : LpModel) : List VarId :=
  dedupKeepAux [] (m.objective.map Prod.fst ++ m.constraints.flatMap (fun c => c.coeffs.map Prod.fst))

/-- The `.name` attribute of a variable object, from the creation record. -/
def nameOf (names : List (VarId × String)) (v : VarId) : String :=
  (dlookup names v).getD ""

/-- Strict lexicographic order on code-point lists — how Python compares
strings when sorting variable names. -/
def charListLt : List Char → List Char → Bool
  | [], [] => false
  | [], _ :: _ => true
  | _ :: _, [] => false
  | a :: as, b :: bs =>
      if a.toNat < b.toNat then true
      else if b.toNat < a.toNat then false
      else charListLt as bs

/-- Strict lexicographic order on strings. -/
def strLt (a b : String) : Bool := charListLt a.data b.data

/-- Stable insertion keyed by variable name (strict comparison, so equal
names keep their relative order, as Python's stable `sorted`). -/
def insertByName (names : List (VarId × String)) (v : VarId) : List VarId → List VarId
  | [] => [v]
  | w :: rest =>
      if strLt (nameOf names v) (nameOf names w) then v :: w :: rest
      else w :: insertByName names v rest

/-- `LpProblem.variables()`: the collected variable objects sorted by name. -/
def sortedModelVars (names : List (VarId × String)) (m : LpModel) : List VarId :=
  (m.varsOf).foldl (fun acc v => insertByName names v acc) []

/-- Lines 90-93: `result[v.name] = v.varValue` over `model.variables()`. -/
def extractResult (names : List (VarId × String)) (m : LpModel) (vals : VarId → ℚ) :
    List (String × ℚ) :=
  (sortedModelVars names m).foldl (fun acc v => dinsert acc (nameOf names v) (vals v)) []

/-- `solve_problem`: build the model from the current state, hand it to the
solver, and return the name-to-value dictionary.  The solver's status is
only printed (line 88); it does not reach the returned value.  The object
state is returned unchanged — the method body assigns to no attribute. -/
def solve_problem (obj : MaterialOptimizer) (solver : Solver) :
    Except PyError (List (String × ℚ)) × MaterialOptimizer :=
  match buildModel obj with
  | Except.error e => (Except.error e, obj)
  | Except.ok m => (Except.ok (extractResult obj.var_names m ((solver m).2)), obj)

/-- One call of the mutating caller-facing API. -/
inductive Op where
  | addOre (ore_name : String) (price volume : ℚ)
  | setYield (ore_name mineral_name : String) (y : ℚ)
  | addMineral (mineral_name : String) (price volume : ℚ)
  | setRequired (nm : String) (amount : ℚ)
  | configure (weight_of_price weight_of_volume : ℚ)
deriving DecidableEq, Repr

/-- Whether an operation is an `add_mineral` call. -/
def Op.isAddMineral : Op → Bool
  | Op.addMineral _ _ _ => true
  | _ => false

/-- Whether an operation is a `configure_cost_function` call. -/
def Op.isConfigure : Op → Bool
  | Op.configure _ _ => true
  | _ => false

/-- Apply one API call to the state; the `Option PyError` is the exception
it raises, if any. -/
def applyOp (s : MaterialOptimizer) : Op → MaterialOptimizer × Option PyError
  | Op.addOre n p v => (add_ore s n p v, none)
  | Op.setYield o m y => set_mineral_yield_of_ore s o m y
  | Op.addMineral n p v => (add_mineral s n p v, none)
  | Op.setRequired n a => (set_required_mineral s n a, none)
  | Op.configure wp wv => (configure_cost_function s wp wv, none)

/-- Run a sequence of API calls; an uncaught exception stops the run. -/
def runOps (s : MaterialOptimizer) : List Op → MaterialOptimizer × Option PyError
  | [] => (s, none)
  | op :: rest =>
      match (applyOp s op).2 with
      | none => runOps (applyOp s op).1 rest
      | some e => ((applyOp s op).1, some e)

/-- A state that some sequence of API calls builds from a fresh object
without raising. -/
def Reachable (s : MaterialOptimizer) : Prop :=
  ∃ ops : List Op, runOps initOptimizer ops = (s, none)

/-- Value of an affine expression at an assignment of the variables. -/
def evalLin (coeffs : List (VarId × ℚ)) (q : VarId → ℚ) : ℚ :=
  (coeffs.map (fun p => p.2 * q p.1)).sum

/-- Meaning of one constraint (`LpConstraintEQ` / `LpConstraintGE` with the
given right-hand side). -/
def constraintHolds (c : LinConstraint) (q : VarId → ℚ) : Prop :=
  match c.sense with
  | CSense.eq => evalLin c.coeffs q = c.rhs
  | CSense.ge => c.rhs ≤ evalLin c.coeffs q

/-- Bounds and integrality of the model's variables: every variable with
id ≥ 2 was created with `lowBound = 0, cat = 'Integer'`; ids 0 and 1
(`volume`, `price`) are the free continuous variables from `__init__`. -/
def intOk (m : LpModel) (q : VarId → ℚ) : Prop :=
  ∀ v ∈ m.varsOf, 2 ≤ v → 0 ≤ q v ∧ ∃ n : ℤ, q v = (n : ℚ)

/-- An assignment satisfying every constraint, bound and integrality
declaration of the model. -/
def feasible (m : LpModel) (q : VarId → ℚ) : Prop :=
  (∀ c ∈ m.constraints, constraintHolds c q) ∧ intOk m q

/-- Objective value of an assignment. -/
def objVal (m : LpModel) (q : VarId → ℚ) : ℚ := evalLin m.objective q

/-- An optimal assignment of the (minimizing) model. -/
def optimal (m : LpModel) (q : VarId → ℚ) : Prop :=
  feasible m q ∧ ∀ p, feasible m p → objVal m q ≤ objVal m p

theorem evalLin_nil (q : VarId → ℚ) : evalLin [] q = 0 := rfl

theorem evalLin_cons (e : VarId × ℚ) (xs : List (VarId × ℚ)) (q : VarId → ℚ) :
    evalLin (e :: xs) q = e.2 * q e.1 + evalLin xs q := by
  simp [evalLin]

theorem evalLin_append (xs ys : List (VarId × ℚ)) (q : VarId → ℚ) :
    evalLin (xs ++ ys) q = evalLin xs q + evalLin ys q := by
  simp [evalLin]

theorem evalLin_map_pairs (l : List VarId) (f : VarId → ℚ) (q : VarId → ℚ) :
    evalLin (l.map (fun v => (v, f v))) q = (l.map (fun v => f v * q v)).sum := by
  induction l with
  | nil => rfl
  | cons v rest ih =>
      rw [List.map_cons, evalLin_cons, ih, List.map_cons, List.sum_cons]

/-- Scale every value of a variable-keyed dictionary. -/
def mapValues (k : ℚ) (d : List (VarId × ℚ)) : List (VarId × ℚ) :=
  d.map (fun e => (e.1, k * e.2))

theorem evalLin_mapValues (k : ℚ) (xs : List (VarId × ℚ)) (q : VarId → ℚ) :
    evalLin (mapValues k xs) q = k * evalLin xs q := by
  induction xs with
  | nil => simp [mapValues, evalLin]
  | cons e rest ih =>
      simp only [mapValues, List.map_cons] at ih ⊢
      simp [evalLin_cons, ih, mul_add, mul_assoc]

/-- Rescale one coordinate of an assignment. -/
def scaleAt (i : VarId) (k : ℚ) (q : VarId → ℚ) : VarId → ℚ :=
  fun v => if v = i then k * q v else q v

theorem evalLin_scaleAt_ne (xs : List (VarId × ℚ)) (i : VarId) (k : ℚ) (q : VarId → ℚ)
    (h : ∀ e ∈ xs, e.1 ≠ i) :
    evalLin xs (scaleAt i k q) = evalLin xs q := by
  induction xs with
  | nil => rfl
  | cons e rest ih =>
      have he : e.1 ≠ i := h e (List.mem_cons_self e rest)
      simp only [evalLin_cons, scaleAt, if_neg he]
      rw [ih (fun e' he' => h e' (List.mem_cons_of_mem e he'))]

theorem dlookup_mapValues (k : ℚ) (d : List (VarId × ℚ)) (v : VarId) :
    dlookup (mapValues k d) v = Option.map (fun p => k * p) (dlookup d v) := by
  induction d with
  | nil => rfl
  | cons e rest ih =>
      obtain ⟨a, b⟩ := e
      by_cases h : a = v
      · simp [mapValues, dlookup, h]
      · simp only [mapValues, List.map_cons, dlookup, if_neg h]
        simpa [mapValues] using ih

theorem lookupPairs_ok_char {d : List (VarId × ℚ)} {l : List VarId} {ys : List (VarId × ℚ)}
    (h : lookupPairs d l = Except.ok ys) :
    ys = l.map (fun v => (v, (dlookup d v).getD 0)) ∧ ∀ v ∈ l, (dlookup d v).isSome := by
  induction l generalizing ys with
  | nil =>
      simp [lookupPairs] at h
      simp [h.symm]
  | cons v rest ih =>
      simp only [lookupPairs] at h
      cases hv : dlookup d v with
      | none => rw [hv] at h; exact absurd h (by simp)
      | some p =>
          rw [hv] at h
          cases hrest : lookupPairs d rest with
          | error e => rw [hrest] at h; exact absurd h (by simp [Except.map])
          | ok zs =>
              rw [hrest] at h
              simp only [Except.map] at h
              obtain ⟨h1, h2⟩ := ih hrest
              refine ⟨?_, ?_⟩
              · have : ys = (v, p) :: zs := by
                  cases h; rfl
                simp [this, h1, hv]
              · intro w hw
                rcases List.mem_cons.mp hw with hw | hw
                · subst hw; simp [hv]
                · exact h2 w hw

theorem lookupPairs_ok_of {d : List (VarId × ℚ)} {l : List VarId}
    (h : ∀ v ∈ l, (dlookup d v).isSome) :
    lookupPairs d l = Except.ok (l.map (fun v => (v, (dlookup d v).getD 0))) := by
  induction l with
  | nil => rfl
  | cons v rest ih =>
      have hv := h v (List.mem_cons_self v rest)
      cases hvv : dlookup d v with
      | none => rw [hvv] at hv; simp at hv
      | some p =>
          simp only [lookupPairs, hvv]
          rw [ih (fun w hw => h w (List.mem_cons_of_mem v hw))]
          simp [Except.map, hvv]

theorem lookupPairs_mapValues (k : ℚ) (d : List (VarId × ℚ)) (l : List VarId) :
    lookupPairs (mapValues k d) l =
      Except.map (fun ys => mapValues k ys) (lookupPairs d l) := by
  induction l with
  | nil => rfl
  | cons v rest ih =>
      simp only [lookupPairs, dlookup_mapValues]
      cases hv : dlookup d v with
      | none => simp [Except.map]
      | some p =>
          simp only [Option.map]
          rw [ih]
          cases hrest : lookupPairs d rest with
          | error e => simp [Except.map]
          | ok zs => simp [Except.map, mapValues]

theorem productionConstraints_ok_mem {yields : List (String × List (VarId × ℚ))}
    {reqs : List (String × ℚ)} {cs : List LinConstraint}
    (h : productionConstraints yields reqs = Except.ok cs)
    {mat : String} {amt : ℚ} (hm : dlookup reqs mat = some amt) :
    ∃ ys, dlookup yields mat = some ys ∧
      ({ coeffs := ys, sense := CSense.ge, cname := "Produce" ++ mat, rhs := amt } : LinConstraint) ∈ cs := by
  induction reqs generalizing cs with
  | nil => simp [dlookup] at hm
  | cons e rest ih =>
      obtain ⟨a, b⟩ := e
      simp only [productionConstraints] at h
      cases hy : dlookup yields a with
      | none => rw [hy] at h; exact absurd h (by simp)
      | some ys =>
          rw [hy] at h
          cases hrest : productionConstraints yields rest with
          | error e2 => rw [hrest] at h; exact absurd h (by simp [Except.map])
          | ok cs2 =>
              rw [hrest] at h
              simp only [Except.map] at h
              have hcs : cs = { coeffs := ys, sense := CSense.ge, cname := "Produce" ++ a, rhs := b } :: cs2 := by
                cases h; rfl
              by_cases hma : a = mat
              · subst hma
                simp only [dlookup, if_pos rfl] at hm
                have hba : b = amt := by cases hm; rfl
                subst hba
                exact ⟨ys, hy, by simp [hcs]⟩
              · simp only [dlookup, if_neg hma] at hm
                obtain ⟨ys', hy', hmem⟩ := ih hrest hm
                exact ⟨ys', hy', by simp [hcs, hmem]⟩

theorem productionConstraints_ok_coeffs {yields : List (String × List (VarId × ℚ))}
    {reqs : List (String × ℚ)} {cs : List LinConstraint}
    (h : productionConstraints yields reqs = Except.ok cs) :
    ∀ c ∈ cs, ∃ mat ys, dlookup yields mat = some ys ∧ c.coeffs = ys := by
  induction reqs generalizing cs with
  | nil =>
      simp [productionConstraints] at h
      simp [h]
  | cons e rest ih =>
      obtain ⟨a, b⟩ := e
      simp only [productionConstraints] at h
      cases hy : dlookup yields a with
      | none => rw [hy] at h; exact absurd h (by simp)
      | some ys =>
          rw [hy] at h
          cases hrest : productionConstraints yields rest with
          | error e2 => rw [hrest] at h; exact absurd h (by simp [Except.map])
          | ok cs2 =>
              rw [hrest] at h
              simp only [Except.map] at h
              have hcs : cs = { coeffs := ys, sense := CSense.ge, cname := "Produce" ++ a, rhs := b } :: cs2 := by
                cases h; rfl
              intro c hc
              rw [hcs] at hc
              rcases List.mem_cons.mp hc with hc | hc
              · exact ⟨a, ys, hy, by simp [hc]⟩
              · exact ih hrest c hc

theorem productionConstraints_missing {yields : List (String × List (VarId × ℚ))}
    {reqs : List (String × ℚ)}
    (h : ∃ mat, (dlookup reqs mat).isSome ∧ dlookup yields mat = none) :
    ∃ mat, (dlookup reqs mat).isSome ∧ dlookup yields mat = none ∧
      productionConstraints yields reqs = Except.error (PyError.keyError mat) := by
  induction reqs with
  | nil =>
      obtain ⟨mat, hm, _⟩ := h
      simp [dlookup] at hm
  | cons e rest ih =>
      obtain ⟨a, b⟩ := e
      cases hy : dlookup yields a with
      | none =>
          refine ⟨a, by simp [dlookup], hy, ?_⟩
          simp [productionConstraints, hy]
      | some ys =>
          obtain ⟨mat, hm, hmy⟩ := h
          have hma : ¬ a = mat := by
            intro e
            rw [e, hmy] at hy
            cases hy
          have hm' : (dlookup rest mat).isSome := by
            simpa [dlookup, hma] using hm
          obtain ⟨mat', h1, h2, h3⟩ := ih ⟨mat, hm', hmy⟩
          refine ⟨mat', ?_, h2, ?_⟩
          · by_cases hmm : a = mat'
            · simp [dlookup, hmm]
            · simpa [dlookup, hmm] using h1
          · simp [productionConstraints, hy, h3, Except.map]

/-- The explicit shape of the model that a successful `buildModel` returns. -/
def assembleModel (s : MaterialOptimizer) (pcs vcs : List (VarId × ℚ))
    (prods : List LinConstraint) : LpModel :=
  { constraints :=
      { coeffs := pcs ++ [(priceVarId, -1)], sense := CSense.eq,
        cname := "PriceConstraint", rhs := 0 } ::
      { coeffs := vcs ++ [(volumeVarId, -1)], sense := CSense.eq,
        cname := "VolumeConstraint", rhs := 0 } ::
      prods
    objective := [(priceVarId, s.weight_of_price), (volumeVarId, s.weight_of_volume)]
    minimize := true }

theorem buildModel_ok_char {s : MaterialOptimizer} {m : LpModel}
    (h : buildModel s = Except.ok m) :
    ∃ pcs vcs prods,
      lookupPairs s.price_per_ore (dvalues s.variable_ore_dict) = Except.ok pcs ∧
      lookupPairs s.volume_per_ore (dvalues s.variable_ore_dict) = Except.ok vcs ∧
      productionConstraints s.yield_per_mineral s.required_materials = Except.ok prods ∧
      m = assembleModel s pcs vcs prods := by
  unfold buildModel at h
  cases h1 : lookupPairs s.price_per_ore (dvalues s.variable_ore_dict) with
  | error e => rw [h1] at h; cases h
  | ok pcs =>
      rw [h1] at h
      cases h2 : lookupPairs s.volume_per_ore (dvalues s.variable_ore_dict) with
      | error e => rw [h2] at h; cases h
      | ok vcs =>
          rw [h2] at h
          cases h3 : productionConstraints s.yield_per_mineral s.required_materials with
          | error e => rw [h3] at h; cases h
          | ok prods =>
              rw [h3] at h
              cases h
              exact ⟨pcs, vcs, prods, rfl, rfl, rfl, rfl⟩

theorem buildModel_ok_of {s : MaterialOptimizer} {pcs vcs : List (VarId × ℚ)}
    {prods : List LinConstraint}
    (h1 : lookupPairs s.price_per_ore (dvalues s.variable_ore_dict) = Except.ok pcs)
    (h2 : lookupPairs s.volume_per_ore (dvalues s.variable_ore_dict) = Except.ok vcs)
    (h3 : productionConstraints s.yield_per_mineral s.required_materials = Except.ok prods) :
    buildModel s = Except.ok (assembleModel s pcs vcs prods) := by
  unfold buildModel
  rw [h1, h2, h3]
  rfl

theorem mem_dinsert {α β : Type} [DecidableEq α] {d : List (α × β)} {k : α} {v : β}
    {e : α × β} (h : e ∈ dinsert d k v) : e = (k, v) ∨ e ∈ d := by
  induction d with
  | nil => simpa [dinsert] using h
  | cons f rest ih =>
      obtain ⟨a, b⟩ := f
      by_cases hak : a = k
      · subst hak
        simp [dinsert] at h
        rcases h with h1 | h2
        · exact Or.inl (by simp [h1])
        · exact Or.inr (List.mem_cons_of_mem _ h2)
      · simp [dinsert, hak] at h
        rcases h with h1 | h2
        · exact Or.inr (by simp [h1])
        · rcases ih h2 with h' | h'
          · exact Or.inl h'
          · exact Or.inr (List.mem_cons_of_mem _ h')

theorem dinsert_dinsert_same {α β : Type} [DecidableEq α] (d : List (α × β)) (k : α) (v w : β) :
    dinsert (dinsert d k v) k w = dinsert d k w := by
  induction d with
  | nil => simp [dinsert]
  | cons e rest ih =>
      obtain ⟨a, b⟩ := e
      by_cases hak : a = k
      · simp [dinsert, hak]
      · simp [dinsert, hak, ih]

theorem dlookup_mem_values {α β : Type} [DecidableEq α] {d : List (α × β)} {k : α} {v : β}
    (h : dlookup d k = some v) : v ∈ dvalues d := by
  have hm := dlookup_mem h
  simp only [dvalues, List.mem_map]
  exact ⟨(k, v), hm, rfl⟩

/-- Closed form of `set_mineral_yield_of_ore`: when the ore is registered,
the net effect on `yield_per_mineral` is one insertion; when it is not,
the call raises `KeyError` after possibly creating an empty inner dict. -/
theorem set_yield_eq (s : MaterialOptimizer) (o mnm : String) (y : ℚ) :
    set_mineral_yield_of_ore s o mnm y =
      match dlookup s.variable_ore_dict o with
      | none =>
          (if (dlookup s.yield_per_mineral mnm).isSome then s
           else { s with yield_per_mineral := dinsert s.yield_per_mineral mnm [] },
           some (PyError.keyError o))
      | some v =>
          ({ s with yield_per_mineral := dinsert s.yield_per_mineral mnm (dinsert ((dlookup s.yield_per_mineral mnm).getD []) v y) }, none) := by
  unfold set_mineral_yield_of_ore
  by_cases hkey : (dlookup s.yield_per_mineral mnm).isSome
  · simp only [if_pos hkey]
  · have hnone : dlookup s.yield_per_mineral mnm = none := by
      cases hx : dlookup s.yield_per_mineral mnm
      · rfl
      · rw [hx] at hkey; simp at hkey
    simp only [if_neg hkey]
    cases hlook : dlookup s.variable_ore_dict o with
    | none => simp
    | some v =>
        simp only []
        rw [dlookup_dinsert_self, dinsert_dinsert_same, hnone]
        simp [dinsert]

/-- Invariant: every ore variable object currently in `variable_ore_dict`
has entries in both `price_per_ore` and `volume_per_ore` (they are written
together by `add_ore`). -/
def WFPriced (s : MaterialOptimizer) : Prop :=
  ∀ v ∈ dvalues s.variable_ore_dict,
    (dlookup s.price_per_ore v).isSome ∧ (dlookup s.volume_per_ore v).isSome

/-- Invariant: every variable id in the ore catalog or in a yield entry was
created by `add_ore`; in particular it is distinct from the ids 0 and 1 of
the `volume` and `price` variables. -/
def OreIdsOk (s : MaterialOptimizer) : Prop :=
  (∀ v ∈ dvalues s.variable_ore_dict, 2 ≤ v) ∧
  (∀ e ∈ s.yield_per_mineral, ∀ p ∈ e.2, 2 ≤ p.1)

/-- The two invariants every API-reachable state enjoys. -/
def StateInv (s : MaterialOptimizer) : Prop := WFPriced s ∧ OreIdsOk s

theorem stateInv_init : StateInv initOptimizer := by
  refine ⟨?_, ?_, ?_⟩
  · intro v hv
    simp [initOptimizer, dvalues] at hv
  · intro v hv
    simp [initOptimizer, dvalues] at hv
  · intro e he
    simp [initOptimizer] at he

theorem stateInv_add_ore {s : MaterialOptimizer} (h : StateInv s)
    (n : String) (p vol : ℚ) : StateInv (add_ore s n p vol) := by
  obtain ⟨hwf, hids, hyids⟩ := h
  refine ⟨?_, ?_, ?_⟩
  · intro v hv
    simp only [add_ore] at hv ⊢
    rcases dvalues_dinsert_subset hv with hv | hv
    · subst hv
      simp [dlookup_dinsert_self]
    · obtain ⟨h1, h2⟩ := hwf v hv
      rw [dlookup_dinsert, dlookup_dinsert]
      constructor
      · by_cases he : v = oreVarId s.next_ore_var <;> simp [he, h1]
      · by_cases he : v = oreVarId s.next_ore_var <;> simp [he, h2]
  · intro v hv
    simp only [add_ore] at hv
    rcases dvalues_dinsert_subset hv with hv | hv
    · subst hv
      simp [oreVarId]
    · exact hids v hv
  · intro e he p' hp'
    simp only [add_ore] at he
    exact hyids e he p' hp'

theorem stateInv_set_yield {s : MaterialOptimizer} (h : StateInv s)
    (o mnm : String) (y : ℚ) : StateInv (set_mineral_yield_of_ore s o mnm y).1 := by
  obtain ⟨hwf, hids, hyids⟩ := h
  rw [set_yield_eq]
  cases hlook : dlookup s.variable_ore_dict o with
  | none =>
      by_cases hkey : (dlookup s.yield_per_mineral mnm).isSome
      · simp only [if_pos hkey]
        exact ⟨hwf, hids, hyids⟩
      · simp only [if_neg hkey]
        refine ⟨hwf, hids, ?_⟩
        intro e he p' hp'
        rcases mem_dinsert he with he' | he'
        · rw [he'] at hp'
          simp at hp'
        · exact hyids e he' p' hp'
  | some v =>
      refine ⟨hwf, hids, ?_⟩
      intro e he p' hp'
      rcases mem_dinsert he with he' | he'
      · have hp2 : p' ∈ dinsert ((dlookup s.yield_per_mineral mnm).getD []) v y := by
          rw [he'] at hp'
          exact hp'
        rcases mem_dinsert hp2 with hp'' | hp''
        · rw [hp'']
          exact hids v (dlookup_mem_values hlook)
        · cases hinner : dlookup s.yield_per_mineral mnm with
          | none =>
              rw [hinner] at hp''
              simp at hp''
          | some inner =>
              rw [hinner] at hp''
              simp only [Option.getD] at hp''
              exact hyids (mnm, inner) (dlookup_mem hinner) p' hp''
      · exact hyids e he' p' hp'

theorem stateInv_applyOp {s : MaterialOptimizer} (h : StateInv s) (op : Op) :
    StateInv (applyOp s op).1 := by
  cases op with
  | addOre n p v => exact stateInv_add_ore h n p v
  | setYield o m y => exact stateInv_set_yield h o m y
  | addMineral n p v =>
      obtain ⟨hwf, hids, hyids⟩ := h
      exact ⟨hwf, hids, hyids⟩
  | setRequired n a =>
      obtain ⟨hwf, hids, hyids⟩ := h
      refine ⟨hwf, hids, hyids⟩
  | configure wp wv =>
      obtain ⟨hwf, hids, hyids⟩ := h
      exact ⟨hwf, hids, hyids⟩

theorem stateInv_runOps {s : MaterialOptimizer} (h : StateInv s) (ops : List Op) :
    StateInv (runOps s ops).1 := by
  induction ops generalizing s with
  | nil => exact h
  | cons op rest ih =>
      simp only [runOps]
      cases (applyOp s op).2 with
      | none => exact ih (stateInv_applyOp h op)
      | some e => exact stateInv_applyOp h op

theorem reachable_stateInv {s : MaterialOptimizer} (h : Reachable s) : StateInv s := by
  obtain ⟨ops, hops⟩ := h
  have hinv := stateInv_runOps stateInv_init ops
  rw [hops] at hinv
  exact hinv

/-- The portion of the object state that `solve_problem` reads: everything
except the three purchased-mineral dictionaries and the purchased-mineral
variable allocator. -/
structure OreView where
  required_materials : List (String × ℚ)
  volume_per_ore : List (VarId × ℚ)
  price_per_ore : List (VarId × ℚ)
  variable_ore_dict : List (String × VarId)
  yield_per_mineral : List (String × List (VarId × ℚ))
  weight_of_volume : ℚ
  weight_of_price : ℚ
  var_names : List (VarId × String)
  next_ore_var : Nat
deriving DecidableEq, Repr

/-- Project the state onto the fields `solve_problem` reads. -/
def oreView (s : MaterialOptimizer) : OreView :=
  { required_materials := s.required_materials
    volume_per_ore := s.volume_per_ore
    price_per_ore := s.price_per_ore
    variable_ore_dict := s.variable_ore_dict
    yield_per_mineral := s.yield_per_mineral
    weight_of_volume := s.weight_of_volume
    weight_of_price := s.weight_of_price
    var_names := s.var_names
    next_ore_var := s.next_ore_var }

theorem oreView_fields {s t : MaterialOptimizer} (h : oreView s = oreView t) :
    s.required_materials = t.required_materials ∧ s.volume_per_ore = t.volume_per_ore ∧
    s.price_per_ore = t.price_per_ore ∧ s.variable_ore_dict = t.variable_ore_dict ∧
    s.yield_per_mineral = t.yield_per_mineral ∧ s.weight_of_volume = t.weight_of_volume ∧
    s.weight_of_price = t.weight_of_price ∧ s.var_names = t.var_names ∧
    s.next_ore_var = t.next_ore_var := by
  simp only [oreView, OreView.mk.injEq] at h
  exact h

theorem buildModel_oreView {s t : MaterialOptimizer} (h : oreView s = oreView t) :
    buildModel s = buildModel t := by
  obtain ⟨h1, h2, h3, h4, h5, h6, h7, h8, h9⟩ := oreView_fields h
  unfold buildModel
  rw [h1, h2, h3, h4, h5, h6, h7]

theorem solve_problem_oreView {s t : MaterialOptimizer} (h : oreView s = oreView t)
    (solver : Solver) : (solve_problem s solver).1 = (solve_problem t solver).1 := by
  obtain ⟨h1, h2, h3, h4, h5, h6, h7, h8, h9⟩ := oreView_fields h
  unfold solve_problem
  rw [buildModel_oreView h, h8]
  cases buildModel t <;> rfl

theorem oreView_add_mineral (s : MaterialOptimizer) (n : String) (p v : ℚ) :
    oreView (add_mineral s n p v) = oreView s := rfl

theorem applyOp_oreView {s t : MaterialOptimizer} (h : oreView s = oreView t)
    (op : Op) (hop : op.isAddMineral = false) :
    oreView (applyOp s op).1 = oreView (applyOp t op).1 ∧
    (applyOp s op).2 = (applyOp t op).2 := by
  obtain ⟨h1, h2, h3, h4, h5, h6, h7, h8, h9⟩ := oreView_fields h
  cases op with
  | addOre n p v =>
      simp [applyOp, add_ore, oreView, OreView.mk.injEq, h1, h2, h3, h4, h5, h6, h7, h8, h9]
  | setYield o m y =>
      simp only [applyOp]
      rw [set_yield_eq, set_yield_eq, h4, h5]
      cases dlookup t.variable_ore_dict o with
      | none =>
          by_cases hkey : (dlookup t.yield_per_mineral m).isSome <;>
            simp [hkey, oreView, OreView.mk.injEq, h1, h2, h3, h4, h5, h6, h7, h8, h9]
      | some v =>
          simp [oreView, OreView.mk.injEq, h1, h2, h3, h4, h5, h6, h7, h8, h9]
  | addMineral n p v => simp [Op.isAddMineral] at hop
  | setRequired n a =>
      simp [applyOp, set_required_mineral, oreView, OreView.mk.injEq, h1, h2, h3, h4, h5, h6,
        h7, h8, h9]
  | configure wp wv =>
      simp [applyOp, configure_cost_function, oreView, OreView.mk.injEq, h1, h2, h3, h4, h5,
        h6, h7, h8, h9]

theorem runOps_filter_addMineral (ops : List Op) :
    ∀ {s t : MaterialOptimizer}, oreView s = oreView t →
    oreView (runOps s ops).1 =
      oreView (runOps t (ops.filter (fun op => !op.isAddMineral))).1 ∧
    (runOps s ops).2 = (runOps t (ops.filter (fun op => !op.isAddMineral))).2 := by
  induction ops with
  | nil =>
      intro s t h
      exact ⟨h, rfl⟩
  | cons op rest ih =>
      intro s t h
      cases hop : op.isAddMineral with
      | true =>
          have hfil : (op :: rest).filter (fun o => !o.isAddMineral) =
              rest.filter (fun o => !o.isAddMineral) := by
            simp [List.filter, hop]
          rw [hfil]
          cases op with
          | addMineral n p v =>
              simp only [runOps, applyOp]
              exact ih ((oreView_add_mineral s n p v).trans h)
          | addOre n p v => simp [Op.isAddMineral] at hop
          | setYield o m y => simp [Op.isAddMineral] at hop
          | setRequired n a => simp [Op.isAddMineral] at hop
          | configure wp wv => simp [Op.isAddMineral] at hop
      | false =>
          have hfil : (op :: rest).filter (fun o => !o.isAddMineral) =
              op :: rest.filter (fun o => !o.isAddMineral) := by
            simp [List.filter, hop]
          rw [hfil]
          simp only [runOps]
          obtain ⟨ha, he⟩ := applyOp_oreView h op hop
          rw [he]
          cases (applyOp t op).2 with
          | none => exact ih ha
          | some e => exact ⟨ha, rfl⟩

/-- A solver stub: reports `Optimal` and assigns 0 to every variable. -/
def solverZeroOpt : Solver := fun _ => (SolverStatus.optimal, fun _ => 0)

/-- A solver stub: reports `Infeasible` and assigns 0 to every variable. -/
def solverZeroInf : Solver := fun _ => (SolverStatus.infeasible, fun _ => 0)

/-- A small session: ore `A` (price 10, volume 1) yields 5 `M` per unit;
requirement `M ≥ 20`. -/
def opsBase : List Op :=
  [Op.addOre "A" 10 1, Op.setYield "A" "M" 5, Op.setRequired "M" 20]

/-- The state after `opsBase`. -/
def sBase : MaterialOptimizer := (runOps initOptimizer opsBase).1

/-- The model `solve_problem` builds from `sBase`. -/
def mBase : LpModel :=
  { constraints :=
      [ { coeffs := [(2, 10), (1, -1)], sense := CSense.eq, cname := "PriceConstraint", rhs := 0 },
        { coeffs := [(2, 1), (0, -1)], sense := CSense.eq, cname := "VolumeConstraint", rhs := 0 },
        { coeffs := [(2, 5)], sense := CSense.ge, cname := "ProduceM", rhs := 20 } ]
    objective := [(1, 1), (0, 0)]
    minimize := true }

/-- `opsBase` with ore `A` re-registered (price 20, volume 2) after its
yield edge was set. -/
def opsRereg : List Op :=
  [Op.addOre "A" 10 1, Op.setYield "A" "M" 5, Op.addOre "A" 20 2, Op.setRequired "M" 20]

/-- The state after `opsRereg`.  Ore `A` is now the variable object with id
4; the yield edge set before the re-registration still points at the old
variable object with id 2. -/
def sRereg : MaterialOptimizer := (runOps initOptimizer opsRereg).1

/-- The model `solve_problem` builds from `sRereg`: the aggregate
constraints use variable 4 with the new price and volume, but the
production constraint still uses the stale variable 2. -/
def mRereg : LpModel :=
  { constraints :=
      [ { coeffs := [(4, 20), (1, -1)], sense := CSense.eq, cname := "PriceConstraint", rhs := 0 },
        { coeffs := [(4, 2), (0, -1)], sense := CSense.eq, cname := "VolumeConstraint", rhs := 0 },
        { coeffs := [(2, 5)], sense := CSense.ge, cname := "ProduceM", rhs := 20 } ]
    objective := [(1, 1), (0, 0)]
    minimize := true }

/-- A session that only sets a requirement for `X`, which never gets a
yield edge. -/
def sReqNoYield : MaterialOptimizer := (runOps initOptimizer [Op.setRequired "X" 5]).1

/-- Claim C9: `solve_problem` never mutates the catalog/requirement state:
the object state after the call is exactly the state before it (all
dictionaries, both weights, all allocation counters), and a repeated call
on the returned state produces the same result — each call constructs the
problem afresh from the same state. -/
theorem solve_problem_pure (s : MaterialOptimizer) (solver : Solver) :
    (solve_problem s solver).2 = s ∧
    (solve_problem ((solve_problem s solver).2) solver).1 = (solve_problem s solver).1 := by
  have h2 : (solve_problem s solver).2 = s := by
    unfold solve_problem
    cases buildModel s <;> rfl
  exact ⟨h2, by rw [h2]⟩

/-- Claim C10: `add_mineral` changes none of the state that `solve_problem`
reads (only the purchased-mineral dictionaries and their allocator), and
for every operation sequence the model built and the mapping returned by
`solve_problem` are identical with the `add_mineral` calls removed. -/
theorem add_mineral_no_model_effect :
    (∀ (s : MaterialOptimizer) (n : String) (p v : ℚ),
        oreView (add_mineral s n p v) = oreView s) ∧
    (∀ (ops : List Op) (solver : Solver),
        buildModel (runOps initOptimizer ops).1 =
          buildModel (runOps initOptimizer (ops.filter (fun op => !op.isAddMineral))).1 ∧
        (solve_problem (runOps initOptimizer ops).1 solver).1 =
          (solve_problem (runOps initOptimizer (ops.filter (fun op => !op.isAddMineral))).1 solver).1) := by
  refine ⟨oreView_add_mineral, ?_⟩
  intro ops solver
  have h := (@runOps_filter_addMineral ops initOptimizer initOptimizer rfl).1
  exact ⟨buildModel_oreView h, solve_problem_oreView h solver⟩

/-- Claim C5 counterexample: the same state handed to a solver that reports
`Optimal` and to one that reports `Infeasible` (with the same variable
values) makes `solve_problem` return the very same value — the non-optimal
status is dropped, and the caller receives only a variable-value mapping. -/
theorem status_dropped_cex :
    (solverZeroOpt mBase).1 = SolverStatus.optimal ∧
    (solverZeroInf mBase).1 = SolverStatus.infeasible ∧
    SolverStatus.optimal ≠ SolverStatus.infeasible ∧
    solve_problem sBase solverZeroOpt = solve_problem sBase solverZeroInf ∧
    (solve_problem sBase solverZeroInf).1 =
      Except.ok [("A", 0), ("price", 0), ("volume", 0)] := by
  refine ⟨rfl, rfl, by decide, by decide, by decide⟩

/-- Claim C5 (amended): `solve_problem` returns only the name-to-value
mapping; the solver's status is printed, not propagated, so two solvers
agreeing on variable values give identical results no matter which
statuses they report. -/
theorem result_ignores_status (s : MaterialOptimizer) (sv1 sv2 : Solver)
    (h : ∀ m, (sv1 m).2 = (sv2 m).2) :
    solve_problem s sv1 = solve_problem s sv2 := by
  unfold solve_problem
  cases buildModel s
  · rfl
  · simp only [h]

/-- Claim C5 witness: the amended theorem applied to the two stub solvers. -/
theorem result_ignores_status_witness :
    (∀ m, (solverZeroOpt m).2 = (solverZeroInf m).2) ∧
    solve_problem sBase solverZeroOpt = solve_problem sBase solverZeroInf :=
  ⟨fun _ => rfl, result_ignores_status sBase solverZeroOpt solverZeroInf (fun _ => rfl)⟩

/-- Claim C6 counterexample: `add_ore` with a negative unit price and a
negative unit volume raises nothing — there is no `InvalidResourceError`
anywhere in the program — the values are stored, appear as coefficients of
the aggregate constraints, and a solve completes normally. -/
theorem add_ore_negative_cex :
    dlookup (add_ore initOptimizer "A" (-1) (-1)).price_per_ore 2 = some (-1) ∧
    dlookup (add_ore initOptimizer "A" (-1) (-1)).volume_per_ore 2 = some (-1) ∧
    buildModel (add_ore initOptimizer "A" (-1) (-1)) =
      Except.ok
        { constraints :=
            [ { coeffs := [(2, -1), (1, -1)], sense := CSense.eq, cname := "PriceConstraint", rhs := 0 },
              { coeffs := [(2, -1), (0, -1)], sense := CSense.eq, cname := "VolumeConstraint", rhs := 0 } ]
          objective := [(1, 1), (0, 0)]
          minimize := true } ∧
    (solve_problem (add_ore initOptimizer "A" (-1) (-1)) solverZeroOpt).1 =
      Except.ok [("A", 0), ("price", 0), ("volume", 0)] := by
  refine ⟨by decide, by decide, by decide, by decide⟩

/-- Claim C6 (amended): `add_ore` validates nothing: any unit price and
unit volume, negative ones included, are recorded verbatim in the catalog
under the fresh variable object. -/
theorem add_ore_no_validation (n : String) (p v : ℚ) (h : p < 0 ∨ v < 0) :
    dlookup (add_ore initOptimizer n p v).price_per_ore 2 = some p ∧
    dlookup (add_ore initOptimizer n p v).volume_per_ore 2 = some v := by
  constructor <;> simp [add_ore, initOptimizer, oreVarId, dinsert, dlookup]

/-- Claim C6 witness: the amended theorem at price = volume = −1. -/
theorem add_ore_no_validation_witness :
    ((-1 : ℚ) < 0 ∨ (-1 : ℚ) < 0) ∧
    dlookup (add_ore initOptimizer "A" (-1) (-1)).price_per_ore 2 = some (-1) ∧
    dlookup (add_ore initOptimizer "A" (-1) (-1)).volume_per_ore 2 = some (-1) :=
  ⟨Or.inl (by norm_num),
    (add_ore_no_validation "A" (-1) (-1) (Or.inl (by norm_num))).1,
    (add_ore_no_validation "A" (-1) (-1) (Or.inl (by norm_num))).2⟩

/-- Claim C7 counterexample: after re-registering ore `A`, the built model
contains *two* decision variables named `A` (ids 2 and 4): the aggregate
constraints and `variable_ore_dict` reference the new variable 4, but the
yield edge set before the re-registration still references the stale
variable 2, which therefore enters the production constraint with no price
or volume attached. -/
theorem reregistration_stale_yield_cex :
    dlookup sRereg.variable_ore_dict "A" = some 4 ∧
    buildModel sRereg = Except.ok mRereg ∧
    ({ coeffs := [(2, 5)], sense := CSense.ge, cname := "ProduceM", rhs := 20 } : LinConstraint)
      ∈ mRereg.constraints ∧
    (2 : VarId) ≠ 4 ∧
    2 ∈ mRereg.varsOf ∧ 4 ∈ mRereg.varsOf ∧
    nameOf sRereg.var_names 2 = "A" ∧ nameOf sRereg.var_names 4 = "A" := by
  refine ⟨by decide, by decide, by decide, by decide, by decide, by decide, by decide, by decide⟩

/-- Claim C7 (amended): re-registering a name replaces the catalog entry —
`variable_ore_dict` maps the name to the fresh variable object, whose new
price and volume feed the aggregate constraints of later builds — but the
yield edges recorded earlier are left untouched, still keyed by the old
variable object. -/
theorem add_ore_overwrite (s : MaterialOptimizer) (n : String) (p vol : ℚ) :
    dlookup (add_ore s n p vol).variable_ore_dict n = some (oreVarId s.next_ore_var) ∧
    dlookup (add_ore s n p vol).price_per_ore (oreVarId s.next_ore_var) = some p ∧
    dlookup (add_ore s n p vol).volume_per_ore (oreVarId s.next_ore_var) = some vol ∧
    (add_ore s n p vol).yield_per_mineral = s.yield_per_mineral ∧
    (add_ore s n p vol).required_materials = s.required_materials := by
  refine ⟨?_, ?_, ?_, rfl, rfl⟩ <;> simp [add_ore, dlookup_dinsert_self]

/-- Claim C4 counterexample: requiring `X` with no yield edge makes
`solve_problem` fail with a plain `KeyError` — not with the
`InfeasibleByConstructionError` the spec prescribes (no such class exists
in the source). -/
theorem missing_yield_cex :
    solve_problem sReqNoYield solverZeroOpt = (Except.error (PyError.keyError "X"), sReqNoYield) ∧
    PyError.keyError "X" ≠ PyError.infeasibleByConstruction := by
  refine ⟨by decide, by decide⟩

/-- Claim C4 (amended): in every reachable state where some required
material has no yield entry, `solve_problem` fails while building the
model — with an uncaught `KeyError` naming such a material rather than a
dedicated `InfeasibleByConstructionError` — before the solver is invoked
(the outcome is the same for every solver), and no variable assignment is
returned. -/
theorem missing_yield_key_error (s : MaterialOptimizer) (hs : Reachable s)
    (h : ∃ mat, (dlookup s.required_materials mat).isSome ∧
        dlookup s.yield_per_mineral mat = none) :
    ∃ mat, (dlookup s.required_materials mat).isSome ∧
      dlookup s.yield_per_mineral mat = none ∧
      ∀ solver : Solver,
        solve_problem s solver = (Except.error (PyError.keyError mat), s) := by
  obtain ⟨hwf, hids⟩ := reachable_stateInv hs
  obtain ⟨mat, h1, h2, h3⟩ := productionConstraints_missing h
  refine ⟨mat, h1, h2, ?_⟩
  intro solver
  have hpc : ∀ v ∈ dvalues s.variable_ore_dict, (dlookup s.price_per_ore v).isSome :=
    fun v hv => (hwf v hv).1
  have hvc : ∀ v ∈ dvalues s.variable_ore_dict, (dlookup s.volume_per_ore v).isSome :=
    fun v hv => (hwf v hv).2
  have hb : buildModel s = Except.error (PyError.keyError mat) := by
    unfold buildModel
    rw [lookupPairs_ok_of hpc, lookupPairs_ok_of hvc, h3]
  unfold solve_problem
  rw [hb]

/-- Claim C4 witness: the amended theorem at the concrete state requiring
`X` without a yield edge. -/
theorem missing_yield_key_error_witness :
    Reachable sReqNoYield ∧
    (∃ mat, (dlookup sReqNoYield.required_materials mat).isSome ∧
        dlookup sReqNoYield.yield_per_mineral mat = none) ∧
    ∃ mat, (dlookup sReqNoYield.required_materials mat).isSome ∧
      dlookup sReqNoYield.yield_per_mineral mat = none ∧
      ∀ solver : Solver,
        solve_problem sReqNoYield solver =
          (Except.error (PyError.keyError mat), sReqNoYield) :=
  ⟨⟨[Op.setRequired "X" 5], rfl⟩, ⟨"X", by decide, by decide⟩,
    missing_yield_key_error sReqNoYield ⟨[Op.setRequired "X" 5], rfl⟩
      ⟨"X", by decide, by decide⟩⟩

/-- `Σ coefficient[r] * quantity[r]` over a list of resource variables,
with coefficients looked up in a catalog dictionary. -/
def catalogTotal (d : List (VarId × ℚ)) (oreVars : List VarId) (q : VarId → ℚ) : ℚ :=
  (oreVars.map (fun v => (dlookup d v).getD 0 * q v)).sum

/-- Claim C1: every model `solve_problem` successfully builds contains an
equality constraint with right-hand side 0 whose expression evaluates, at
every assignment, to the sum of unit price times quantity over all
registered resources minus the aggregate `price` variable — and the
analogous equality constraint for volume. -/
theorem aggregate_constraints (s : MaterialOptimizer) (m : LpModel)
    (hm : buildModel s = Except.ok m) :
    (∃ pc ∈ m.constraints, pc.sense = CSense.eq ∧ pc.rhs = 0 ∧
      ∀ q : VarId → ℚ, evalLin pc.coeffs q =
        catalogTotal s.price_per_ore (dvalues s.variable_ore_dict) q - q priceVarId) ∧
    (∃ vc ∈ m.constraints, vc.sense = CSense.eq ∧ vc.rhs = 0 ∧
      ∀ q : VarId → ℚ, evalLin vc.coeffs q =
        catalogTotal s.volume_per_ore (dvalues s.variable_ore_dict) q - q volumeVarId) := by
  obtain ⟨pcs, vcs, prods, h1, h2, h3, hm'⟩ := buildModel_ok_char hm
  subst hm'
  obtain ⟨hpcs, hpsome⟩ := lookupPairs_ok_char h1
  obtain ⟨hvcs, hvsome⟩ := lookupPairs_ok_char h2
  constructor
  · refine ⟨_, List.mem_cons_self _ _, rfl, rfl, ?_⟩
    intro q
    rw [evalLin_append, hpcs, evalLin_map_pairs, evalLin_cons, evalLin_nil]
    show catalogTotal s.price_per_ore (dvalues s.variable_ore_dict) q + (-1 * q priceVarId + 0) = _
    ring
  · refine ⟨_, List.mem_cons_of_mem _ (List.mem_cons_self _ _), rfl, rfl, ?_⟩
    intro q
    rw [evalLin_append, hvcs, evalLin_map_pairs, evalLin_cons, evalLin_nil]
    show catalogTotal s.volume_per_ore (dvalues s.variable_ore_dict) q + (-1 * q volumeVarId + 0) = _
    ring

/-- Claim C1 witness: the aggregate constraints of the concrete model built
from `sBase`. -/
theorem aggregate_constraints_witness :
    buildModel sBase = Except.ok mBase ∧
    ((∃ pc ∈ mBase.constraints, pc.sense = CSense.eq ∧ pc.rhs = 0 ∧
      ∀ q : VarId → ℚ, evalLin pc.coeffs q =
        catalogTotal sBase.price_per_ore (dvalues sBase.variable_ore_dict) q - q priceVarId) ∧
    (∃ vc ∈ mBase.constraints, vc.sense = CSense.eq ∧ vc.rhs = 0 ∧
      ∀ q : VarId → ℚ, evalLin vc.coeffs q =
        catalogTotal sBase.volume_per_ore (dvalues sBase.variable_ore_dict) q - q volumeVarId)) :=
  ⟨by decide, aggregate_constraints sBase mBase (by decide)⟩

/-- Claim C2: for every output with a registered requirement `amt`, a
successfully built model contains the `GE` constraint whose coefficient
list is exactly the registered yield edges into that output and whose
right-hand side is `amt`; at any assignment it means
`Σ yield[r→output] * quantity[r] ≥ amt`. -/
theorem production_constraint_present (s : MaterialOptimizer) (m : LpModel)
    (out : String) (amt : ℚ) (hm : buildModel s = Except.ok m)
    (hreq : dlookup s.required_materials out = some amt) :
    ∃ ys, dlookup s.yield_per_mineral out = some ys ∧
      ({ coeffs := ys, sense := CSense.ge, cname := "Produce" ++ out, rhs := amt } : LinConstraint)
        ∈ m.constraints ∧
      ∀ q : VarId → ℚ,
        constraintHolds
          { coeffs := ys, sense := CSense.ge, cname := "Produce" ++ out, rhs := amt } q ↔
          amt ≤ evalLin ys q := by
  obtain ⟨pcs, vcs, prods, h1, h2, h3, hm'⟩ := buildModel_ok_char hm
  subst hm'
  obtain ⟨ys, hy, hmem⟩ := productionConstraints_ok_mem h3 hreq
  exact ⟨ys, hy, List.mem_cons_of_mem _ (List.mem_cons_of_mem _ hmem), fun q => Iff.rfl⟩

/-- Claim C2 witness: the production constraint for `M` in the concrete
model built from `sBase`. -/
theorem production_constraint_present_witness :
    buildModel sBase = Except.ok mBase ∧
    dlookup sBase.required_materials "M" = some 20 ∧
    ∃ ys, dlookup sBase.yield_per_mineral "M" = some ys ∧
      ({ coeffs := ys, sense := CSense.ge, cname := "Produce" ++ "M", rhs := 20 } : LinConstraint)
        ∈ mBase.constraints ∧
      ∀ q : VarId → ℚ,
        constraintHolds
          { coeffs := ys, sense := CSense.ge, cname := "Produce" ++ "M", rhs := 20 } q ↔
          (20 : ℚ) ≤ evalLin ys q :=
  ⟨by decide, by decide, production_constraint_present sBase mBase "M" 20 (by decide) (by decide)⟩

theorem weights_applyOp {s : MaterialOptimizer} {op : Op} (hop : op.isConfigure = false) :
    (applyOp s op).1.weight_of_price = s.weight_of_price ∧
    (applyOp s op).1.weight_of_volume = s.weight_of_volume := by
  cases op with
  | addOre n p v => exact ⟨rfl, rfl⟩
  | setYield o m y =>
      simp only [applyOp]
      rw [set_yield_eq]
      cases dlookup s.variable_ore_dict o with
      | none =>
          by_cases hkey : (dlookup s.yield_per_mineral m).isSome <;> simp [hkey]
      | some v => exact ⟨rfl, rfl⟩
  | addMineral n p v => exact ⟨rfl, rfl⟩
  | setRequired n a => exact ⟨rfl, rfl⟩
  | configure wp wv => simp [Op.isConfigure] at hop

theorem weights_runOps {s : MaterialOptimizer} (ops : List Op)
    (h : ∀ op ∈ ops, op.isConfigure = false) :
    (runOps s ops).1.weight_of_price = s.weight_of_price ∧
    (runOps s ops).1.weight_of_volume = s.weight_of_volume := by
  induction ops generalizing s with
  | nil => exact ⟨rfl, rfl⟩
  | cons op rest ih =>
      have hop := h op (List.mem_cons_self op rest)
      have hrest : ∀ o ∈ rest, o.isConfigure = false :=
        fun o ho => h o (List.mem_cons_of_mem op ho)
      simp only [runOps]
      cases (applyOp s op).2 with
      | none =>
          obtain ⟨hw1, hw2⟩ := weights_applyOp hop
          obtain ⟨hr1, hr2⟩ := ih hrest
          exact ⟨hr1.trans hw1, hr2.trans hw2⟩
      | some e => exact weights_applyOp hop

/-- Claim C3: every built model is a minimization whose objective is
exactly `weight_of_price * price + weight_of_volume * volume`; a fresh
object carries the default weights `weight_of_price = 1`,
`weight_of_volume = 0`, and any operation sequence that never calls
`configure_cost_function` leaves those defaults in place — minimization of
price alone by default. -/
theorem objective_and_default_weights :
    (∀ (s : MaterialOptimizer) (m : LpModel), buildModel s = Except.ok m →
      m.minimize = true ∧
      m.objective = [(priceVarId, s.weight_of_price), (volumeVarId, s.weight_of_volume)] ∧
      ∀ q : VarId → ℚ, objVal m q =
        s.weight_of_price * q priceVarId + s.weight_of_volume * q volumeVarId) ∧
    initOptimizer.weight_of_price = 1 ∧ initOptimizer.weight_of_volume = 0 ∧
    (∀ ops : List Op, (∀ op ∈ ops, op.isConfigure = false) →
      (runOps initOptimizer ops).1.weight_of_price = 1 ∧
      (runOps initOptimizer ops).1.weight_of_volume = 0) := by
  refine ⟨?_, rfl, rfl, ?_⟩
  · intro s m hm
    obtain ⟨pcs, vcs, prods, h1, h2, h3, hm'⟩ := buildModel_ok_char hm
    subst hm'
    refine ⟨rfl, rfl, ?_⟩
    intro q
    show s.weight_of_price * q priceVarId + (s.weight_of_volume * q volumeVarId + 0) = _
    ring
  · intro ops h
    exact weights_runOps ops h

/-- Claim C3 witness: objective shape of the concrete model and default
weights after the configure-free session `opsBase`. -/
theorem objective_and_default_weights_witness :
    buildModel sBase = Except.ok mBase ∧
    (∀ op ∈ opsBase, op.isConfigure = false) ∧
    (mBase.minimize = true ∧
     mBase.objective = [(priceVarId, sBase.weight_of_price), (volumeVarId, sBase.weight_of_volume)] ∧
     ∀ q : VarId → ℚ, objVal mBase q =
       sBase.weight_of_price * q priceVarId + sBase.weight_of_volume * q volumeVarId) ∧
    ((runOps initOptimizer opsBase).1.weight_of_price = 1 ∧
     (runOps initOptimizer opsBase).1.weight_of_volume = 0) :=
  ⟨by decide, by decide, objective_and_default_weights.1 sBase mBase (by decide),
    objective_and_default_weights.2.2.2 opsBase (by decide)⟩

/-- Multiply every registered unit price in the catalog by `k`. -/
def scalePrices (k : ℚ) (s : MaterialOptimizer) : MaterialOptimizer :=
  { s with price_per_ore := mapValues k s.price_per_ore }

theorem fst_mapValues (k : ℚ) (d : List (VarId × ℚ)) :
    (mapValues k d).map Prod.fst = d.map Prod.fst := by
  induction d with
  | nil => rfl
  | cons e rest ih => simpa [mapValues] using ih

theorem scaleAt_ne (i : VarId) (k : ℚ) (q : VarId → ℚ) (v : VarId) (h : v ≠ i) :
    scaleAt i k q v = q v := by
  simp [scaleAt, h]

theorem scaleAt_self (i : VarId) (k : ℚ) (q : VarId → ℚ) : scaleAt i k q i = k * q i := by
  simp [scaleAt]

theorem constraintHolds_eq (coeffs : List (VarId × ℚ)) (nm : String) (r : ℚ) (q : VarId → ℚ) :
    constraintHolds { coeffs := coeffs, sense := CSense.eq, cname := nm, rhs := r } q ↔
      evalLin coeffs q = r := Iff.rfl

theorem constraintHolds_congr {c : LinConstraint} {q1 q2 : VarId → ℚ}
    (h : evalLin c.coeffs q1 = evalLin c.coeffs q2) :
    constraintHolds c q1 ↔ constraintHolds c q2 := by
  obtain ⟨coeffs, sense, nm, r⟩ := c
  dsimp only at h
  cases sense
  · show evalLin coeffs q1 = r ↔ evalLin coeffs q2 = r
    rw [h]
  · show r ≤ evalLin coeffs q1 ↔ r ≤ evalLin coeffs q2
    rw [h]

theorem ne_priceVarId_of_two_le {v : VarId} (h : 2 ≤ v) : v ≠ priceVarId := by
  intro hc
  rw [hc] at h
  exact absurd h (by decide)

/-- Claim C8: with `weight_of_volume = 0`, multiplying every registered
unit price by a constant `k > 0` produces a model whose optima are exactly
the optima of the original with the aggregate `price` variable scaled by
`k`: the transported assignment is optimal iff the original one is, it
agrees with the original on every variable other than `price` — in
particular on every integer purchase quantity — and its `price` value is
exactly `k` times the original aggregate price. -/
theorem scaling_invariant (s : MaterialOptimizer) (k : ℚ) (m : LpModel)
    (hs : Reachable s) (hk : 0 < k) (hwv : s.weight_of_volume = 0)
    (hm : buildModel s = Except.ok m) :
    ∃ m', buildModel (scalePrices k s) = Except.ok m' ∧
      ∀ q : VarId → ℚ,
        (optimal m' (scaleAt priceVarId k q) ↔ optimal m q) ∧
        (∀ v : VarId, v ≠ priceVarId → scaleAt priceVarId k q v = q v) ∧
        scaleAt priceVarId k q priceVarId = k * q priceVarId := by
  have hk0 : k ≠ 0 := ne_of_gt hk
  obtain ⟨hwf, hids, hyids⟩ := reachable_stateInv hs
  obtain ⟨pcs, vcs, prods, h1, h2, h3, hmdef⟩ := buildModel_ok_char hm
  subst hmdef
  have h1' : lookupPairs (scalePrices k s).price_per_ore
      (dvalues (scalePrices k s).variable_ore_dict) = Except.ok (mapValues k pcs) := by
    show lookupPairs (mapValues k s.price_per_ore) (dvalues s.variable_ore_dict) = _
    rw [lookupPairs_mapValues, h1]
    rfl
  have h2' : lookupPairs (scalePrices k s).volume_per_ore
      (dvalues (scalePrices k s).variable_ore_dict) = Except.ok vcs := h2
  have h3' : productionConstraints (scalePrices k s).yield_per_mineral
      (scalePrices k s).required_materials = Except.ok prods := h3
  obtain ⟨hpcs_eq, hpsome⟩ := lookupPairs_ok_char h1
  obtain ⟨hvcs_eq, hvsome⟩ := lookupPairs_ok_char h2
  have hpc_ne : ∀ e ∈ pcs, e.1 ≠ priceVarId := by
    intro e he
    rw [hpcs_eq] at he
    simp only [List.mem_map] at he
    obtain ⟨v, hv, rfl⟩ := he
    have h2v : 2 ≤ v := hids v hv
    exact ne_priceVarId_of_two_le h2v
  have hvc_ne : ∀ e ∈ vcs, e.1 ≠ priceVarId := by
    intro e he
    rw [hvcs_eq] at he
    simp only [List.mem_map] at he
    obtain ⟨v, hv, rfl⟩ := he
    have h2v : 2 ≤ v := hids v hv
    exact ne_priceVarId_of_two_le h2v
  have hprod_ne : ∀ c ∈ prods, ∀ e ∈ c.coeffs, e.1 ≠ priceVarId := by
    intro c hc e he
    obtain ⟨mat, ys, hy, hcoe⟩ := productionConstraints_ok_coeffs h3 c hc
    rw [hcoe] at he
    have h2e : 2 ≤ e.1 := hyids (mat, ys) (dlookup_mem hy) e he
    exact ne_priceVarId_of_two_le h2e
  have hTvc : ∀ q : VarId → ℚ,
      evalLin (vcs ++ [(volumeVarId, -1)]) (scaleAt priceVarId k q) =
        evalLin (vcs ++ [(volumeVarId, -1)]) q := by
    intro q
    apply evalLin_scaleAt_ne
    intro e he
    rcases List.mem_append.mp he with he | he
    · exact hvc_ne e he
    · simp only [List.mem_singleton] at he
      subst he
      show volumeVarId ≠ priceVarId
      simp [volumeVarId, priceVarId]
  have hTpc : ∀ q : VarId → ℚ,
      evalLin (mapValues k pcs ++ [(priceVarId, -1)]) (scaleAt priceVarId k q) =
        k * evalLin (pcs ++ [(priceVarId, -1)]) q := by
    intro q
    rw [evalLin_append, evalLin_append]
    have e1 : evalLin (mapValues k pcs) (scaleAt priceVarId k q) = evalLin (mapValues k pcs) q := by
      apply evalLin_scaleAt_ne
      intro e he
      simp only [mapValues, List.mem_map] at he
      obtain ⟨f, hf, rfl⟩ := he
      exact hpc_ne f hf
    rw [e1, evalLin_mapValues, evalLin_cons, evalLin_nil, evalLin_cons, evalLin_nil, scaleAt_self]
    ring
  have hTprod : ∀ c ∈ prods, ∀ q : VarId → ℚ,
      evalLin c.coeffs (scaleAt priceVarId k q) = evalLin c.coeffs q := by
    intro c hc q
    exact evalLin_scaleAt_ne _ _ _ _ (hprod_ne c hc)
  have hvars : (assembleModel (scalePrices k s) (mapValues k pcs) vcs prods).varsOf =
      (assembleModel s pcs vcs prods).varsOf := by
    unfold LpModel.varsOf assembleModel
    congr 1
    simp [fst_mapValues]
  have hconstr : ∀ q : VarId → ℚ,
      (∀ c ∈ (assembleModel (scalePrices k s) (mapValues k pcs) vcs prods).constraints,
        constraintHolds c (scaleAt priceVarId k q)) ↔
      (∀ c ∈ (assembleModel s pcs vcs prods).constraints, constraintHolds c q) := by
    intro q
    simp only [assembleModel, List.forall_mem_cons]
    have hpciff :
        constraintHolds
          { coeffs := mapValues k pcs ++ [(priceVarId, -1)], sense := CSense.eq,
            cname := "PriceConstraint", rhs := 0 } (scaleAt priceVarId k q) ↔
        constraintHolds
          { coeffs := pcs ++ [(priceVarId, -1)], sense := CSense.eq,
            cname := "PriceConstraint", rhs := 0 } q := by
      rw [constraintHolds_eq, constraintHolds_eq, hTpc q]
      constructor
      · intro h
        rcases mul_eq_zero.mp h with h | h
        · exact absurd h hk0
        · exact h
      · intro h
        rw [h, mul_zero]
    have hvciff :
        constraintHolds
          { coeffs := vcs ++ [(volumeVarId, -1)], sense := CSense.eq,
            cname := "VolumeConstraint", rhs := 0 } (scaleAt priceVarId k q) ↔
        constraintHolds
          { coeffs := vcs ++ [(volumeVarId, -1)], sense := CSense.eq,
            cname := "VolumeConstraint", rhs := 0 } q :=
      constraintHolds_congr (hTvc q)
    refine and_congr hpciff (and_congr hvciff ?_)
    constructor
    · intro h c hc
      exact (constraintHolds_congr (hTprod c hc q)).mp (h c hc)
    · intro h c hc
      exact (constraintHolds_congr (hTprod c hc q)).mpr (h c hc)
  have hint : ∀ q : VarId → ℚ,
      intOk (assembleModel (scalePrices k s) (mapValues k pcs) vcs prods) (scaleAt priceVarId k q) ↔
      intOk (assembleModel s pcs vcs prods) q := by
    intro q
    unfold intOk
    rw [hvars]
    constructor
    · intro h v hv h2v
      have hh := h v hv h2v
      rw [scaleAt_ne priceVarId k q v (ne_priceVarId_of_two_le h2v)] at hh
      exact hh
    · intro h v hv h2v
      rw [scaleAt_ne priceVarId k q v (ne_priceVarId_of_two_le h2v)]
      exact h v hv h2v
  have hfeas : ∀ q : VarId → ℚ,
      feasible (assembleModel (scalePrices k s) (mapValues k pcs) vcs prods)
        (scaleAt priceVarId k q) ↔
      feasible (assembleModel s pcs vcs prods) q := by
    intro q
    unfold feasible
    exact and_congr (hconstr q) (hint q)
  have hobj : ∀ q : VarId → ℚ,
      objVal (assembleModel (scalePrices k s) (mapValues k pcs) vcs prods)
        (scaleAt priceVarId k q) =
      k * objVal (assembleModel s pcs vcs prods) q := by
    intro q
    show s.weight_of_price * scaleAt priceVarId k q priceVarId +
        (s.weight_of_volume * scaleAt priceVarId k q volumeVarId + 0) =
      k * (s.weight_of_price * q priceVarId + (s.weight_of_volume * q volumeVarId + 0))
    rw [hwv, scaleAt_self, scaleAt_ne priceVarId k q volumeVarId (by decide)]
    ring
  have hTsurj : ∀ p : VarId → ℚ, scaleAt priceVarId k (scaleAt priceVarId k⁻¹ p) = p := by
    intro p
    funext v
    by_cases hv : v = priceVarId
    · subst hv
      show k * (scaleAt priceVarId k⁻¹ p priceVarId) = p priceVarId
      rw [scaleAt_self]
      exact mul_inv_cancel_left₀ hk0 _
    · rw [scaleAt_ne priceVarId k _ v hv, scaleAt_ne priceVarId k⁻¹ p v hv]
  refine ⟨assembleModel (scalePrices k s) (mapValues k pcs) vcs prods,
    buildModel_ok_of h1' h2' h3', ?_⟩
  intro q
  refine ⟨?_, fun v hv => scaleAt_ne _ _ _ _ hv, scaleAt_self _ _ _⟩
  unfold optimal
  constructor
  · rintro ⟨hf, hmin⟩
    refine ⟨(hfeas q).mp hf, ?_⟩
    intro p hp
    have h1p := hmin (scaleAt priceVarId k p) ((hfeas p).mpr hp)
    rw [hobj q, hobj p] at h1p
    exact le_of_mul_le_mul_left h1p hk
  · rintro ⟨hf, hmin⟩
    refine ⟨(hfeas q).mpr hf, ?_⟩
    intro p hp
    have hfp : feasible (assembleModel s pcs vcs prods) (scaleAt priceVarId k⁻¹ p) := by
      apply (hfeas (scaleAt priceVarId k⁻¹ p)).mp
      rw [hTsurj p]
      exact hp
    have h1p := hmin (scaleAt priceVarId k⁻¹ p) hfp
    have h2p : objVal (assembleModel (scalePrices k s) (mapValues k pcs) vcs prods) p =
        k * objVal (assembleModel s pcs vcs prods) (scaleAt priceVarId k⁻¹ p) := by
      conv_lhs => rw [← hTsurj p]
      exact hobj (scaleAt priceVarId k⁻¹ p)
    rw [hobj q, h2p]
    exact mul_le_mul_of_nonneg_left h1p (le_of_lt hk)

/-- Claim C8 witness: the scaling invariant applied to the concrete session
`sBase` with `k = 2`. -/
theorem scaling_invariant_witness :
    Reachable sBase ∧ (0 : ℚ) < 2 ∧ sBase.weight_of_volume = 0 ∧
    buildModel sBase = Except.ok mBase ∧
    (∃ m', buildModel (scalePrices 2 sBase) = Except.ok m' ∧
      ∀ q : VarId → ℚ,
        (optimal m' (scaleAt priceVarId 2 q) ↔ optimal mBase q) ∧
        (∀ v : VarId, v ≠ priceVarId → scaleAt priceVarId 2 q v = q v) ∧
        scaleAt priceVarId 2 q priceVarId = 2 * q priceVarId) :=
  ⟨⟨opsBase, by decide⟩, by norm_num, by decide, by decide,
    scaling_invariant sBase 2 mBase ⟨opsBase, by decide⟩ (by norm_num) (by decide) (by decide)⟩
